import Mathlib

/-!
Verification of the waybill/pallet reconciliation and cost-allocation core of the
logistics coordination tool (`apps/app.py`, `apps/app2.py`).

Strings from spreadsheet cells are embedded as `List Char`; Python floats are
idealised as exact rationals (`ℚ`), with `round(x, 2)` / numpy `.round(2)`
embedded as exact round-half-to-even at two decimals.  Spreadsheet cell values
are embedded as `PyVal` (none / NaN / string / int / non-integral number).
All definitions are computable so that concrete runs of the embedded code can be
evaluated inside proofs.
-/

namespace YQN

/-! ## Character classes and basic string helpers -/

/-- The whitespace characters of Python `str.strip()` / regex `\s`
(the `str.isspace()` set): U+0009-U+000D, U+001C-U+001F, the space, U+0085
(NEL), U+00A0 (NBSP), U+1680, U+2000-U+200A, U+2028, U+2029, U+202F, U+205F
and U+3000 (ideographic space). -/
def isPySpace (c : Char) : Bool :=
  (9 ≤ c.toNat && c.toNat ≤ 13) || (28 ≤ c.toNat && c.toNat ≤ 32) ||
  c.toNat = 133 || c.toNat = 160 || c.toNat = 5760 ||
  (8192 ≤ c.toNat && c.toNat ≤ 8202) || c.toNat = 8232 || c.toNat = 8233 ||
  c.toNat = 8239 || c.toNat = 8287 || c.toNat = 12288

/-- Python `str.strip()`: drop leading and trailing whitespace. -/
def stripWs (s : List Char) : List Char :=
  ((s.dropWhile isPySpace).reverse.dropWhile isPySpace).reverse

/-- ASCII decimal digit (regex `\d` on the app tokens). -/
def isDigit09 (c : Char) : Bool := '0' ≤ c && c ≤ '9'

/-- ASCII letter (regex `[A-Za-z]`). -/
def isAsciiLetter (c : Char) : Bool := ('A' ≤ c && c ≤ 'Z') || ('a' ≤ c && c ≤ 'z')

/-- Segment delimiters of `_extract_pure_waybills_and_po`:
`re.split(r"[,\，;\；、\|/]+", ...)`. -/
def isSegDelim (c : Char) : Bool :=
  c = ',' || c = '，' || c = ';' || c = '；' || c = '、' || c = '|' || c = '/'

/-- Token delimiters of `_split_tokens` (`_RE_SPLIT = r"[,\，;\；、\|\/\s]+"`). -/
def isTokDelim (c : Char) : Bool := isSegDelim c || isPySpace c

/-- Delimiters used by `_merge_set`: `re.split(r"[,\，;\；\|/ ]+", ...)`
(note: only the literal space, and no `、`). -/
def isMergeDelim (c : Char) : Bool :=
  c = ',' || c = '，' || c = ';' || c = '；' || c = '|' || c = '/' || c = ' '

/-- Split on a delimiter class and drop empty pieces, as
`[t for t in re.split(delims, s) if t]`.  The accumulator holds the current
token reversed. -/
def splitByAux (p : Char → Bool) : List Char → List Char → List (List Char)
  | [], acc => if acc = [] then [] else [acc.reverse]
  | c :: rest, acc =>
    if p c then
      (if acc = [] then splitByAux p rest [] else acc.reverse :: splitByAux p rest [])
    else splitByAux p rest (c :: acc)

/-- Nonempty maximal runs of non-delimiter characters, in order. -/
def splitBy (p : Char → Bool) (s : List Char) : List (List Char) :=
  splitByAux p s []

/-- First-seen-order deduplication: the Python
`seen = []; for t in l: if t not in seen: seen.append(t)` loop.  `seen` is the
list built so far. -/
def dedupSeen [DecidableEq α] : List α → List α → List α
  | seen, [] => seen
  | seen, t :: rest => if t ∈ seen then dedupSeen seen rest else dedupSeen (seen ++ [t]) rest

/-- Deduplicate keeping the first occurrence of each element. -/
def dedupFirst [DecidableEq α] (l : List α) : List α := dedupSeen [] l

/-- Decimal digits of a natural number, most significant first, with explicit
fuel so that the definition reduces inside the kernel. -/
def natCharsAux : Nat → Nat → List Char
  | 0, _ => []
  | fuel + 1, n =>
    if n = 0 then [] else natCharsAux fuel (n / 10) ++ [Char.ofNat ('0'.toNat + n % 10)]

/-- Python `str` of a natural number. -/
def natStr (n : Nat) : List Char := if n = 0 then ['0'] else natCharsAux (n + 1) n

/-- Python `str` of an integer. -/
def intStr (z : Int) : List Char :=
  if z < 0 then '-' :: natStr z.natAbs else natStr z.natAbs

/-! ## Exact two-decimal rounding (Python `round(x, 2)` / numpy `.round(2)`) -/

/-- Floor of a rational as an integer, computably. -/
def qfloor (x : ℚ) : ℤ := x.num.fdiv x.den

/-- Round half to even (banker's rounding), the rounding used by Python
`round` and numpy `.round`, on exact rationals. -/
def rndHalfEven (x : ℚ) : ℤ :=
  let n := qfloor x
  let f := x - (n : ℚ)
  if f < 1/2 then n
  else if 1/2 < f then n + 1
  else if n % 2 = 0 then n else n + 1

/-- `round(x, 2)` in exact arithmetic. -/
def round2 (x : ℚ) : ℚ := ((rndHalfEven (100 * x) : ℤ) : ℚ) / 100

/-! ## Bracket removal (`_remove_parens_iter`) and first balanced pair
(`_first_balanced_paren_content`), `apps/app2.py` lines 50-96.

One pass of `re.sub(r"\([^()]*\)", "", s)` is a left-to-right scan: starting at
each opening bracket, if the next bracket character is the matching closer the
whole span is deleted, otherwise the opener is kept literally.  `buf` holds the
candidate span (reversed) after the most recent unmatched opener. -/

/-- One `re.sub` pass deleting innermost `oC ... cC` spans, with a buffer for a
pending opener.  Mirrors the leftmost-match semantics of `re.sub`. -/
def subParAux (oC cC : Char) : Option (List Char) → List Char → List Char
  | none, [] => []
  | some b, [] => b.reverse
  | none, c :: rest =>
    if c = oC then subParAux oC cC (some [c]) rest
    else c :: subParAux oC cC none rest
  | some b, c :: rest =>
    if c = cC then subParAux oC cC none rest
    else if c = oC then b.reverse ++ subParAux oC cC (some [c]) rest
    else subParAux oC cC (some (c :: b)) rest

/-- One pass of `re.sub(r"\([^()]*\)", "", s)` for a given bracket pair. -/
def subPar (oC cC : Char) (s : List Char) : List Char := subParAux oC cC none s

/-- One iteration of the `_remove_parens_iter` loop body: half-width brackets
first, then full-width. -/
def parenStep (s : List Char) : List Char := subPar '（' '）' (subPar '(' ')' s)

/-- Fuel-indexed fixpoint iteration of `parenStep` (the `while prev != out`
loop).  Each non-fixpoint step strictly shortens the string, so fuel
`s.length + 1` always reaches the fixpoint. -/
def remove_parens_iterAux : Nat → List Char → List Char
  | 0, s => s
  | fuel + 1, s =>
    if parenStep s = s then s else remove_parens_iterAux fuel (parenStep s)

/-- `_remove_parens_iter`: repeatedly delete half-width/full-width bracketed
spans until nothing changes. -/
def remove_parens_iter (s : List Char) : List Char :=
  remove_parens_iterAux (s.length + 1) s

/-- Depth-tracking scan after the first opener: return the span contents once
depth returns to zero (`_first_balanced_paren_content` inner loop). -/
def grabDepth (oC cC : Char) : List Char → Nat → List Char → Option (List Char)
  | [], _, _ => none
  | c :: rest, depth, acc =>
    if c = oC then grabDepth oC cC rest (depth + 1) (acc ++ [c])
    else if c = cC then
      (if depth = 1 then some acc else grabDepth oC cC rest (depth - 1) (acc ++ [c]))
    else grabDepth oC cC rest depth (acc ++ [c])

/-- Content of the first balanced `oC ... cC` pair, if any. -/
def firstParenBy (oC cC : Char) (s : List Char) : Option (List Char) :=
  if s.contains oC then grabDepth oC cC (s.dropWhile (fun c => c ≠ oC)).tail 1 []
  else none

/-- `_first_balanced_paren_content`: first balanced half-width pair (stripped),
falling back to the first balanced full-width pair. -/
def first_balanced_paren_content (s : List Char) : Option (List Char) :=
  match firstParenBy '(' ')' s with
  | some t => some (stripWs t)
  | none =>
    match firstParenBy '（' '）' s with
    | some t => some (stripWs t)
    | none => none

/-! ## Identifier normalisation (`_norm_waybill_str`, `apps/app2.py` 238-246) -/

/-- Parse a decimal numeral `[+-]? digits [. digits]?` exactly (the float forms
produced by spreadsheet cells; scientific notation and inf/nan never occur in
identifier tokens and are not modelled). -/
def parseDecimal (s : List Char) : Option ℚ :=
  let (sgn, body) :=
    match s with
    | '-' :: rest => ((-1 : ℚ), rest)
    | '+' :: rest => ((1 : ℚ), rest)
    | _ => ((1 : ℚ), s)
  let intPart := body.takeWhile isDigit09
  let rest1 := body.dropWhile isDigit09
  let (fracPart, rest2) :=
    match rest1 with
    | '.' :: r => (r.takeWhile isDigit09, r.dropWhile isDigit09)
    | _ => ([], rest1)
  if rest2 = [] then
    if intPart = [] ∧ fracPart = [] then none
    else
      let iv : ℚ := intPart.foldl (fun a c => 10 * a + ((c.toNat - '0'.toNat : Nat) : ℚ)) 0
      let fv : ℚ := fracPart.foldl (fun a c => 10 * a + ((c.toNat - '0'.toNat : Nat) : ℚ)) 0
      some (sgn * (iv + fv / ((10 : ℚ) ^ fracPart.length)))
  else none

/-- `_norm_waybill_str`: strip, drop a trailing `".0"`, and collapse
numeric-like strings that are integral (within 1e-9) to their integer string. -/
def norm_waybill_str (v : List Char) : List Char :=
  if stripWs v = [] then []
  else
    let s := stripWs v
    let s := if s.reverse.take 2 = ['0', '.'] then s.take (s.length - 2) else s
    match parseDecimal s with
    | some f => if |f - (rndHalfEven f : ℚ)| < 1 / 1000000000 then intStr (rndHalfEven f) else s
    | none => s

/-! ## Cell extraction (`_extract_pure_waybills_and_po`, `apps/app2.py` 1149-1197) -/

/-- Validity predicate on a normalised token: must not start with `IP`
(case-insensitive), must contain an ASCII letter and a digit, length ≥ 8. -/
def isValidWb (t : List Char) : Bool :=
  ((t.map Char.toUpper).take 2 != ['I', 'P']) &&
  t.any isAsciiLetter && t.any isDigit09 && decide (8 ≤ t.length)

/-- Insert into an association list with Python-dict semantics: update in place
if the key exists, else append. -/
def amInsert (m : List (List Char × List Char)) (k v : List Char) :
    List (List Char × List Char) :=
  if m.any (fun p => p.1 = k) then m.map (fun p => if p.1 = k then (k, v) else p)
  else m ++ [(k, v)]

/-- The per-segment token loop of `_extract_pure_waybills_and_po`: state is
(waybill list so far, reference map so far, first waybill of this segment). -/
def segLoop (fp : Option (List Char)) :
    List (List Char) →
    List (List Char) × List (List Char × List Char) × Option (List Char) →
    List (List Char) × List (List Char × List Char) × Option (List Char)
  | [], st => st
  | p :: rest, (wbs, cmap, found) =>
    let token := norm_waybill_str p
    if token = [] then segLoop fp rest (wbs, cmap, found)
    else if isValidWb token = false then segLoop fp rest (wbs, cmap, found)
    else
      let wbs := wbs ++ [token]
      match fp, found with
      | some t, none =>
        if t ≠ [] then segLoop fp rest (wbs, amInsert cmap token t, some token)
        else segLoop fp rest (wbs, cmap, none)
      | _, _ => segLoop fp rest (wbs, cmap, found)

/-- Process one (already stripped, nonempty) segment. -/
def processSeg (st : List (List Char) × List (List Char × List Char))
    (seg : List Char) : List (List Char) × List (List Char × List Char) :=
  let fp := first_balanced_paren_content seg
  let parts := splitBy isTokDelim (remove_parens_iter seg)
  let (wbs, cmap, _) := segLoop fp parts (st.1, st.2, none)
  (wbs, cmap)

/-- `_extract_pure_waybills_and_po`: split the cell into segments, remove
bracketed spans, tokenize, validate, and associate the first balanced bracket
text of each segment with that segment's first valid waybill token. -/
def extract_pure_waybills_and_po (mixed : List Char) :
    List (List Char) × List (List Char × List Char) :=
  if stripWs mixed = [] then ([], [])
  else
    let segs := ((splitBy isSegDelim mixed).map stripWs).filter (fun s => s ≠ [])
    let (wbs, cmap) := segs.foldl processSeg ([], [])
    (dedupFirst wbs, cmap)

/-! ## Spreadsheet cell values

Cells read with `UNFORMATTED_VALUE` and delta-frame entries are Python `None`,
float `NaN`, strings, ints, or floats.  Non-integral floats are carried as
exact rationals. -/

inductive PyVal : Type
  | vNone : PyVal
  | vNan : PyVal
  | vStr : List Char → PyVal
  | vInt : ℤ → PyVal
  | vNum : ℚ → PyVal
deriving DecidableEq

open PyVal

/-- Fractional decimal digits of a rational in `[0,1)`, up to `fuel` digits
(Python float representations always terminate; used only for `str(float)`). -/
def fracChars : Nat → ℚ → List Char
  | 0, _ => []
  | fuel + 1, x =>
    if x = 0 then []
    else
      let d := qfloor (10 * x)
      Char.ofNat ('0'.toNat + d.toNat) :: fracChars fuel (10 * x - (d : ℚ))

/-- Python `str()` of a cell value.  The float rendering is idealised as the
exact decimal expansion `[-]digits.digits`; like CPython's shortest-repr form
it consists only of a sign, digits and a point, which is all the ISO-date
guard below can observe. -/
def pyStr : PyVal → List Char
  | vNone => "None".data
  | vNan => "nan".data
  | vStr s => s
  | vInt z => intStr z
  | vNum q =>
    let frac := fracChars 30 (|q| - (qfloor |q| : ℚ))
    (if q < 0 then ['-'] else []) ++ natStr (qfloor |q|).toNat ++
      '.' :: (if frac = [] then ['0'] else frac)

/-- The blank test used on existing cells and by `_merge_set`
(`None`, float NaN, or a whitespace-only string). -/
def cellBlank : PyVal → Bool
  | vNone => true
  | vNan => true
  | vStr s => stripWs s = []
  | vInt _ => false
  | vNum _ => false

/-- `_is_effective`: a delta value is worth writing (not `None`, NaN, or a
blank string). -/
def is_effective (v : PyVal) : Bool := !cellBlank v

/-- `_to_jsonable_cell`: `None`/NaN become the empty string, everything else
passes through (ints and finite floats unchanged, strings unchanged). -/
def to_jsonable_cell : PyVal → PyVal
  | vNone => vStr []
  | vNan => vStr []
  | v => v

/-! ## `_merge_set` (`apps/app2.py` 1594-1603) -/

/-- Token list of a cell for `_merge_set`: blank cells yield no tokens, else
split the stripped string on the merge delimiter class. -/
def mergeToks (v : PyVal) : List (List Char) :=
  if cellBlank v then [] else splitBy isMergeDelim (stripWs (pyStr v))

/-- Join tokens with the merge separator `","`. -/
def joinComma : List (List Char) → List Char
  | [] => []
  | [t] => t
  | t :: rest => t ++ ',' :: joinComma rest

/-- `_merge_set`: union of old and new token lists, first-seen order,
rejoined with `","`. -/
def merge_set (old new : PyVal) : List Char :=
  joinComma (dedupFirst (mergeToks old ++ mergeToks new))

/-! ## `_is_iso_date` (`apps/app2.py` 1604-1611)

`pd.to_datetime(s, format="%Y-%m-%d", errors="raise")` follows `strptime`:
exactly four digits for `%Y` (year ≥ 1), one or two digits for `%m` (1-12) and
`%d` (1-31), full-string match, and calendar validation of the day. -/

/-- Gregorian leap year. -/
def isLeap (y : Nat) : Bool := y % 4 = 0 && (y % 100 ≠ 0 || y % 400 = 0)

/-- Days in a month (1-12). -/
def daysInMonth (y m : Nat) : Nat :=
  if m = 2 then (if isLeap y then 29 else 28)
  else if m = 4 ∨ m = 6 ∨ m = 9 ∨ m = 11 then 30
  else 31

/-- Numeric value of a digit character. -/
def digitVal (c : Char) : Nat := c.toNat - '0'.toNat

/-- Possible `%m`-style parses (`1[0-2]|0[1-9]|[1-9]`) of a string's front:
value and remainder, in regex alternation order. -/
def monthParses : List Char → List (Nat × List Char)
  | a :: b :: rest =>
    (if a = '1' && '0' ≤ b && b ≤ '2' then [(10 + digitVal b, rest)] else []) ++
    (if a = '0' && '1' ≤ b && b ≤ '9' then [(digitVal b, rest)] else []) ++
    (if '1' ≤ a && a ≤ '9' then [(digitVal a, b :: rest)] else [])
  | [a] => if '1' ≤ a && a ≤ '9' then [(digitVal a, [])] else []
  | [] => []

/-- Possible `%d`-style parses (`3[01]|[12]\d|0[1-9]|[1-9]`) of a string's
front. -/
def dayParses : List Char → List (Nat × List Char)
  | a :: b :: rest =>
    (if a = '3' && ('0' ≤ b && b ≤ '1') then [(30 + digitVal b, rest)] else []) ++
    (if ('1' ≤ a && a ≤ '2') && isDigit09 b then [(10 * digitVal a + digitVal b, rest)] else []) ++
    (if a = '0' && '1' ≤ b && b ≤ '9' then [(digitVal b, rest)] else []) ++
    (if '1' ≤ a && a ≤ '9' then [(digitVal a, b :: rest)] else [])
  | [a] => if '1' ≤ a && a ≤ '9' then [(digitVal a, [])] else []
  | [] => []

/-- Whether a calendar date can be represented as a midnight
`datetime64[ns]` pandas `Timestamp`: `pd.to_datetime` raises
`OutOfBoundsDatetime` outside 1677-09-21T00:12:43.145224193 ..
2262-04-11T23:47:16.854775807, so date-only strings are accepted exactly for
1677-09-22 through 2262-04-11. -/
def inTimestampBounds (y m d : Nat) : Bool :=
  (decide (1677 < y) || (y = 1677 && (decide (9 < m) || (m = 9 && decide (22 ≤ d))))) &&
  (decide (y < 2262) || (y = 2262 && (decide (m < 4) || (m = 4 && decide (d ≤ 11)))))

/-- `_is_iso_date` on a string: strict `%Y-%m-%d` acceptance, including the
pandas `Timestamp` range check. -/
def isIsoDateStr (s : List Char) : Bool :=
  let ys := s.take 4
  if ys.length = 4 && ys.all isDigit09 then
    let y := ys.foldl (fun a c => 10 * a + digitVal c) 0
    match s.drop 4 with
    | '-' :: r2 =>
      decide (1 ≤ y) &&
      (monthParses r2).any (fun mp =>
        match mp.2 with
        | '-' :: r4 =>
          (dayParses r4).any (fun dp =>
            dp.2 = [] && decide (1 ≤ dp.1) && decide (dp.1 ≤ daysInMonth y mp.1) &&
            inTimestampBounds y mp.1 dp.1)
        | _ => false)
    | _ => false
  else false

/-- `_is_iso_date(str(v))` as used by the upsert guard. -/
def is_iso_date (v : PyVal) : Bool := isIsoDateStr (pyStr v)

/-! ## Upsert cell semantics (`upsert_waybill_summary_partial`,
`apps/app2.py` 1563-1742) -/

/-- Per-column write policies. -/
inductive WPolicy : Type
  | blankOnly : WPolicy
  | mergeSetP : WPolicy
  | dflt : WPolicy
deriving DecidableEq

open WPolicy

/-- `WRITE_POLICY` table (`apps/app2.py` 1574-1588). -/
def WRITE_POLICY : List (List Char × WPolicy) :=
  [("到仓日期".data, blankOnly), ("发走日期".data, blankOnly),
   ("美仓备货完成日期".data, blankOnly), ("到自提仓库日期".data, blankOnly),
   ("到自提仓库费用".data, blankOnly), ("发走费用".data, blankOnly),
   ("到自提仓库卡车号".data, mergeSetP), ("发走卡车号".data, mergeSetP),
   ("仓库代码".data, blankOnly), ("客户单号".data, blankOnly),
   ("自提仓库".data, blankOnly), ("批次ID".data, blankOnly),
   ("上传时间".data, blankOnly)]

/-- `WRITE_POLICY.get(col, "default")`. -/
def writePolicy (col : List Char) : WPolicy :=
  (((WRITE_POLICY.find? (fun p => p.1 = col)).map Prod.snd)).getD dflt

/-- The four managed date columns guarded by `_is_iso_date`
(`apps/app2.py` 1673). -/
def dateCols : List (List Char) :=
  ["到仓日期".data, "发走日期".data, "美仓备货完成日期".data, "到自提仓库日期".data]

/-- Whether a column is one of the managed date columns. -/
def isDateCol (col : List Char) : Bool := col ∈ dateCols

/-- Decision for one existing-row cell under a given policy and date-column
flag (`apps/app2.py` 1675-1698): `none` means the cell is skipped, `some w`
means `w` is queued as the write value. -/
def cellDecisionWith (pol : WPolicy) (dateCol : Bool) (oldv newv : PyVal) : Option PyVal :=
  if dateCol then
    if is_iso_date newv = false then none
    else
      match pol with
      | blankOnly => if cellBlank oldv then some newv else none
      | mergeSetP => some (vStr (merge_set oldv newv))
      | dflt => some newv
  else
    if is_effective newv = false then none
    else
      match pol with
      | blankOnly => if cellBlank oldv then some newv else none
      | mergeSetP => some (vStr (merge_set oldv newv))
      | dflt => some newv

/-- Decision for one existing-row cell of a managed column. -/
def cellDecision (col : List Char) (oldv newv : PyVal) : Option PyVal :=
  cellDecisionWith (writePolicy col) (isDateCol col) oldv newv

/-- Value of the cell after the update pass: queued writes go through
`_to_jsonable_cell`, skipped cells keep the existing value. -/
def cellAfter (col : List Char) (oldv newv : PyVal) : PyVal :=
  match cellDecision col oldv newv with
  | some w => to_jsonable_cell w
  | none => oldv

/-- Value placed in a managed column of an appended new row
(`apps/app2.py` 1727-1737): effective delta values are written through
`_to_jsonable_cell`, others leave the empty string. -/
def newRowCell (v : PyVal) : PyVal :=
  if is_effective v then to_jsonable_cell v else vStr []

/-! ## Pallet-level cost allocation (`apps/app2.py` 1936-1956)

The selected pallets all have validated positive weights; shares are
`weight / total`, raw amounts are rounded to two decimals, and a residual of
at least one cent is added to the row with the largest rounded amount
(`idxmax`, i.e. the first maximum). -/

/-- Index of the first maximum of a list (pandas `Series.idxmax` on a
0-based range index). -/
def argmaxAux : List ℚ → Nat → Nat → ℚ → Nat
  | [], _, best, _ => best
  | x :: rest, i, best, bv =>
    if bv < x then argmaxAux rest (i + 1) i x else argmaxAux rest (i + 1) best bv

/-- First index attaining the maximum (0 on the empty list). -/
def argmaxIdx : List ℚ → Nat
  | [] => 0
  | x :: rest => argmaxAux rest 1 0 x

/-- `分摊比例`: per-pallet share of the truck cost. -/
def palletRatios (weights : List ℚ) : List ℚ :=
  weights.map (fun w => w / weights.sum)

/-- `分摊费用` before residual correction: each raw share of the total cost
rounded to two decimals. -/
def palletRounded (total : ℚ) (weights : List ℚ) : List ℚ :=
  (palletRatios weights).map (fun r => round2 (r * total))

/-- `diff_cost`: the residual after rounding, itself rounded to two decimals
(`apps/app2.py` 1950). -/
def palletDiff (total : ℚ) (weights : List ℚ) : ℚ :=
  round2 (total - (palletRounded total weights).sum)

/-- The full `selected_pal` allocation block: round each share, and when the
residual `total - sum` is at least one cent in magnitude, add it to the first
row with the largest rounded amount (`apps/app2.py` 1947-1956). -/
def palletAlloc (total : ℚ) (weights : List ℚ) : List ℚ :=
  if 1/100 ≤ |palletDiff total weights| then
    (palletRounded total weights).set (argmaxIdx (palletRounded total weights))
      (round2 ((palletRounded total weights).getD (argmaxIdx (palletRounded total weights)) 0 +
        palletDiff total weights))
  else palletRounded total weights

/-! ## Waybill-level cost allocation (`build_waybill_delta`,
`apps/app2.py` 1357-1398 and 1502)

Weights are reference-table lookups (`None` when missing); non-positive
weights are dropped, shares are weight-proportional, and when no positive
weight exists every waybill gets `1/N`.  Per-waybill accumulated costs are
rounded to two decimals at output time, with no residual correction. -/

/-- The share computation of one tracking record (`apps/app2.py` 1368-1382). -/
def recordShares (ws : List (Option ℚ)) : List ℚ :=
  let cleaned := ws.map (fun o =>
    match o with
    | some w => if 0 < w then some w else none
    | none => none)
  let totalW := (cleaned.filterMap id).sum
  if 0 < totalW then
    cleaned.map (fun o =>
      match o with
      | some w => w / totalW
      | none => 0)
  else List.replicate ws.length (1 / (ws.length : ℚ))

/-- `发走费用` for the waybills of a single tracking record: the share of the
pallet cost accumulated at line 1387 and rounded at line 1502. -/
def recordCosts (cost : ℚ) (ws : List (Option ℚ)) : List ℚ :=
  (recordShares ws).map (fun s => round2 (cost * s))

/-! ## Capacity check on pallet binding (`apps/app.py` 521-556) -/

/-- One reported violation row (`运单号 / 到仓箱数 / 已分配 / 本次输入 / 超出`). -/
structure Violation where
  wb : List Char
  allowed : ℤ
  already : ℤ
  addQty : ℤ
  overage : ℤ
deriving DecidableEq, Repr

/-- The violation-collection loop (`apps/app.py` 534-549): entries without a
usable capacity go to `missing_info`; entries whose already-allocated
(uploaded + local) plus requested quantity exceeds the capacity produce a
violation row.  Returns `(violations, missing_info)` in input order. -/
def collectViolations (uploaded localAlloc : List Char → ℤ)
    (allowedMap : List Char → Option ℤ) :
    List (List Char × ℤ) → List Violation × List (List Char)
  | [] => ([], [])
  | (wb, q) :: rest =>
    match allowedMap wb with
    | none =>
      ((collectViolations uploaded localAlloc allowedMap rest).1,
       wb :: (collectViolations uploaded localAlloc allowedMap rest).2)
    | some allowed =>
      if allowed < uploaded wb + localAlloc wb + q then
        (⟨wb, allowed, uploaded wb + localAlloc wb, q,
          uploaded wb + localAlloc wb + q - allowed⟩ ::
            (collectViolations uploaded localAlloc allowedMap rest).1,
         (collectViolations uploaded localAlloc allowedMap rest).2)
      else collectViolations uploaded localAlloc allowedMap rest

/-- Whether the submission commits rows: only when no violation was reported
(`apps/app.py` 554-580, the `else` branch of `if violations`). -/
def submitCommits (uploaded localAlloc : List Char → ℤ)
    (allowedMap : List Char → Option ℤ) (entries : List (List Char × ℤ)) : Bool :=
  (collectViolations uploaded localAlloc allowedMap entries).1 = []

/-! ## Composite pallet identifiers (`apps/app.py` 58-67 and 138-158) -/

/-- The base-36 alphabet `0123456789ABCDEFGHIJKLMNOPQRSTUVWXYZ`. -/
def ALPHABET : List Char := "0123456789ABCDEFGHIJKLMNOPQRSTUVWXYZ".data

/-- Base-36 digits of a natural number, most significant first, with fuel so
the definition reduces in the kernel (`_to_base36` loop). -/
def b36Aux : Nat → Nat → List Char
  | 0, _ => []
  | fuel + 1, n =>
    if n = 0 then [] else b36Aux fuel (n / 36) ++ [ALPHABET.getD (n % 36) '0']

/-- `_to_base36`. -/
def to_base36 (n : Nat) : List Char := if n = 0 then ['0'] else b36Aux (n + 1) n

/-- Python `str.rjust(n, '0')`. -/
def rjustZeros (n : Nat) (s : List Char) : List Char :=
  List.replicate (n - s.length) '0' ++ s

/-- The warehouse scope processing of `generate_pallet_id`:
`(str(warehouse) if warehouse else "UNK").upper()[:3] or "UNK"`.  Note that a
short scope is truncated but never padded. -/
def procWh (warehouse : Option (List Char)) : List Char :=
  let base :=
    match warehouse with
    | some s => if s = [] then "UNK".data else s
    | none => "UNK".data
  let t := (base.map Char.toUpper).take 3
  if t = [] then "UNK".data else t

/-- UTF-8 encoding of a code point (Python `str.encode()`). -/
def utf8Enc (n : Nat) : List Nat :=
  if n < 128 then [n]
  else if n < 2048 then [192 + n / 64, 128 + n % 64]
  else if n < 65536 then [224 + n / 4096, 128 + n / 64 % 64, 128 + n % 64]
  else [240 + n / 262144, 128 + n / 4096 % 64, 128 + n / 64 % 64, 128 + n % 64]

/-- UTF-8 bytes of a string. -/
def utf8Bytes (s : List Char) : List Nat := (s.map (fun c => utf8Enc c.toNat)).flatten

/-- One bit-step of the reflected CRC-32 polynomial 0xEDB88320. -/
def crcStep (c : Nat) : Nat := if c % 2 = 1 then (c / 2) ^^^ 0xEDB88320 else c / 2

/-- `zlib.crc32` over a byte list. -/
def crc32 (bs : List Nat) : Nat :=
  (bs.foldl (fun crc b => crcStep^[8] (crc ^^^ b % 256)) 0xFFFFFFFF) ^^^ 0xFFFFFFFF

/-- The core of a pallet id before the checksum: `f"P{ts}-{wh}-{seq36}"`,
where `ts` is the `%y%m%d` date and `seq` the registry sequence number. -/
def palletCore (warehouse : Option (List Char)) (ts : List Char) (seq : Nat) : List Char :=
  'P' :: ts ++ '-' :: procWh warehouse ++ '-' :: rjustZeros 6 (to_base36 seq)

/-- `generate_pallet_id` with the ambient date and allocated sequence made
explicit: core, dash, and the CRC-32 checksum character. -/
def generate_pallet_id (warehouse : Option (List Char)) (ts : List Char) (seq : Nat) :
    List Char :=
  let core := palletCore warehouse ts seq
  core ++ '-' :: [ALPHABET.getD (crc32 (utf8Bytes core) % 36) '0']

/-! ## Definitions taken from the claim wording (for refinement comparison) -/

/-- Modelled from the claim wording of C9: composite id in the exact format
`P<YYMMDD><SCOPE: 3 chars, padded or truncated><SEQ: base-36, 6 digits,
zero-padded><checksum>` with no separators, scope padded to width 3, and the
checksum indexed by `crc32(core) mod 36`. -/
def specCompositeId (scope : List Char) (ts : List Char) (seq : Nat) : List Char :=
  let scope3 := (scope.take 3) ++ List.replicate (3 - scope.length) ' '
  let core := 'P' :: ts ++ scope3 ++ rjustZeros 6 (to_base36 seq)
  core ++ [ALPHABET.getD (crc32 (utf8Bytes core) % 36) '0']

/-- Modelled from the claim wording of C3: the verbatim (unstripped) inner
text of the first balanced bracket pair of a segment. -/
def specVerbatimFirstParen (s : List Char) : Option (List Char) :=
  match firstParenBy '(' ')' s with
  | some t => some t
  | none => firstParenBy '（' '）' s

/-! ## Lemmas about exact two-decimal rounding -/

theorem qfloor_eq_floor (x : ℚ) : qfloor x = ⌊x⌋ := by
  rw [Rat.floor_def, qfloor, Int.fdiv_eq_ediv _ (Int.natCast_nonneg x.den)]

theorem rndHalfEven_of_floor_lt (x : ℚ) (n : ℤ) (hf : ⌊x⌋ = n) (h : x - n < 1/2) :
    rndHalfEven x = n := by
  rw [rndHalfEven]
  simp only [qfloor_eq_floor, hf]
  rw [if_pos h]

theorem rndHalfEven_of_lt (x : ℚ) (n : ℤ) (h1 : (n : ℚ) ≤ x) (h2 : x < n + 1/2) :
    rndHalfEven x = n := by
  refine rndHalfEven_of_floor_lt x n ?_ (by linarith)
  rw [Int.floor_eq_iff]
  constructor
  · exact_mod_cast h1
  · linarith

theorem rndHalfEven_of_gt (x : ℚ) (n : ℤ) (h1 : (n : ℚ) + 1/2 < x) (h2 : x < n + 1) :
    rndHalfEven x = n + 1 := by
  have hf : ⌊x⌋ = n := by
    rw [Int.floor_eq_iff]
    constructor
    · linarith
    · linarith
  rw [rndHalfEven]
  simp only [qfloor_eq_floor, hf]
  rw [if_neg (by linarith), if_pos (by linarith)]

theorem rndHalfEven_intCast (z : ℤ) : rndHalfEven (z : ℚ) = z :=
  rndHalfEven_of_lt _ z (le_refl _) (by linarith)

/-- A value that is an exact multiple of `1/100` is fixed by `round2`. -/
theorem round2_of_cent (x : ℚ) (k : ℤ) (hk : (k : ℚ) = 100 * x) : round2 x = x := by
  rw [round2, ← hk, rndHalfEven_intCast, hk]
  field_simp

/-- `round2` always returns an exact multiple of `1/100`. -/
theorem round2_cents (x : ℚ) : ((rndHalfEven (100 * x) : ℤ) : ℚ) = 100 * round2 x := by
  rw [round2]
  field_simp

theorem round2_eval (x : ℚ) (n : ℤ) (h1 : (n : ℚ) ≤ 100 * x) (h2 : 100 * x < n + 1/2) :
    round2 x = (n : ℚ) / 100 := by
  rw [round2, rndHalfEven_of_lt _ n h1 h2]

/-- Any list of exact cent values has an exact cent sum. -/
theorem sum_cents (l : List ℚ) (h : ∀ x ∈ l, ∃ k : ℤ, (k : ℚ) = 100 * x) :
    ∃ k : ℤ, (k : ℚ) = 100 * l.sum := by
  induction l with
  | nil => exact ⟨0, by simp⟩
  | cons a t ih =>
    obtain ⟨ka, hka⟩ := h a (List.mem_cons_self a t)
    obtain ⟨kt, hkt⟩ := ih (fun x hx => h x (List.mem_cons_of_mem a hx))
    refine ⟨ka + kt, ?_⟩
    push_cast
    rw [List.sum_cons, hka, hkt]
    ring

/-- An exact cent value of magnitude below one cent is zero. -/
theorem cent_small_eq_zero (x : ℚ) (k : ℤ) (hk : (k : ℚ) = 100 * x) (h : |x| < 1/100) :
    x = 0 := by
  have hk1 : |(k : ℚ)| < 1 := by
    rw [hk, abs_mul]
    rw [abs_of_nonneg (by norm_num : (0:ℚ) ≤ 100)]
    linarith [abs_nonneg x]
  have : k = 0 := by
    by_contra hne
    have : (1 : ℚ) ≤ |(k : ℚ)| := by
      rw [← Int.cast_abs]
      exact_mod_cast Int.one_le_abs hne
    linarith
  subst this
  simp at hk
  linarith [hk]

/-! ## List lemmas for the allocation proofs -/

theorem getD_set_ne (l : List ℚ) (i j : Nat) (a : ℚ) (h : i ≠ j) :
    (l.set i a).getD j 0 = l.getD j 0 := by
  induction l generalizing i j with
  | nil => rfl
  | cons x t ih =>
    cases i with
    | zero =>
      cases j with
      | zero => exact absurd rfl h
      | succ j => rfl
    | succ i =>
      cases j with
      | zero => rfl
      | succ j => exact ih i j (fun hij => h (by rw [hij]))

theorem getD_map_of_lt (f : ℚ → ℚ) (l : List ℚ) (j : Nat) (h : j < l.length) :
    (l.map f).getD j 0 = f (l.getD j 0) := by
  induction l generalizing j with
  | nil => exact absurd h (by simp)
  | cons x t ih =>
    cases j with
    | zero => rfl
    | succ j => exact ih j (by simpa using Nat.lt_of_succ_lt_succ h)

theorem sum_set_eq (l : List ℚ) (i : Nat) (d : ℚ) (h : i < l.length) :
    (l.set i d).sum = l.sum - l.getD i 0 + d := by
  induction l generalizing i with
  | nil => exact absurd h (by simp)
  | cons x t ih =>
    cases i with
    | zero =>
      simp only [List.set, List.sum_cons, List.getD_cons_zero]
      ring
    | succ i =>
      have := ih i (by simpa using Nat.lt_of_succ_lt_succ h)
      simp only [List.set, List.sum_cons, List.getD_cons_succ, this]
      ring

theorem getD_mem (l : List ℚ) (i : Nat) (h : i < l.length) : l.getD i 0 ∈ l := by
  induction l generalizing i with
  | nil => exact absurd h (by simp)
  | cons x t ih =>
    cases i with
    | zero => exact List.mem_cons_self x t
    | succ i =>
      exact List.mem_cons_of_mem x (ih i (by simpa using Nat.lt_of_succ_lt_succ h))

theorem argmaxAux_lt (l : List ℚ) : ∀ (i best : Nat) (bv : ℚ), best < i →
    argmaxAux l i best bv < i + l.length := by
  induction l with
  | nil =>
    intro i best bv h
    simpa using h
  | cons x t ih =>
    intro i best bv h
    rw [argmaxAux]
    by_cases hx : bv < x
    · rw [if_pos hx]
      have h2 := ih (i + 1) i x (Nat.lt_succ_self i)
      simp only [List.length_cons]
      omega
    · rw [if_neg hx]
      have h2 := ih (i + 1) best bv (Nat.lt_succ_of_lt h)
      simp only [List.length_cons]
      omega

theorem argmaxIdx_lt (l : List ℚ) (h : l ≠ []) : argmaxIdx l < l.length := by
  match l, h with
  | x :: t, _ =>
    have := argmaxAux_lt t 1 0 x (Nat.lt_succ_self 0)
    simpa [argmaxIdx, Nat.add_comm] using this

theorem palletRounded_length (total : ℚ) (weights : List ℚ) :
    (palletRounded total weights).length = weights.length := by
  simp [palletRounded, palletRatios]

theorem palletRounded_getD (total : ℚ) (weights : List ℚ) (j : Nat)
    (h : j < weights.length) :
    (palletRounded total weights).getD j 0 =
      round2 (weights.getD j 0 / weights.sum * total) := by
  rw [palletRounded, palletRatios, List.map_map]
  exact getD_map_of_lt _ weights j h

theorem palletRounded_cents (total : ℚ) (weights : List ℚ) (x : ℚ)
    (hx : x ∈ palletRounded total weights) : ∃ k : ℤ, (k : ℚ) = 100 * x := by
  rw [palletRounded] at hx
  obtain ⟨r, _, rfl⟩ := List.mem_map.mp hx
  exact ⟨rndHalfEven (100 * (r * total)), round2_cents _⟩

/-- C1: for every two-decimal `total_amount ≥ 0` and list of positive pallet
weights, the `selected_pal` allocation rounds each weight-proportional share
to two decimals, adds any residual of at least one cent to the first row with
the largest rounded amount, and afterwards the allocations sum exactly to
`round(total_amount, 2)`; rows other than that maximum row keep their rounded
share `round2(weight / total_weight * total)`. -/
theorem C1_pallet_allocation_conservation (total : ℚ) (weights : List ℚ)
    (htot : 0 ≤ total) (hcent : ∃ k : ℤ, (k : ℚ) = 100 * total)
    (hne : weights ≠ []) (hpos : ∀ w ∈ weights, 0 < w) :
    (palletAlloc total weights).sum = round2 total ∧
    ∀ j, j < weights.length → j ≠ argmaxIdx (palletRounded total weights) →
      (palletAlloc total weights).getD j 0 =
        round2 (weights.getD j 0 / weights.sum * total) := by
  obtain ⟨kt, hkt⟩ := hcent
  have hrlen : (palletRounded total weights).length = weights.length :=
    palletRounded_length total weights
  have hrne : palletRounded total weights ≠ [] := by
    intro h0
    apply hne
    have : weights.length = 0 := by rw [← hrlen, h0]; rfl
    exact List.length_eq_zero.mp this
  obtain ⟨ks, hks⟩ := sum_cents (palletRounded total weights)
    (fun x hx => palletRounded_cents total weights x hx)
  have hdiff_cent : ((kt - ks : ℤ) : ℚ) = 100 * (total - (palletRounded total weights).sum) := by
    push_cast
    rw [hkt, hks]
    ring
  have hdiff_eq : palletDiff total weights = total - (palletRounded total weights).sum :=
    round2_of_cent _ (kt - ks) hdiff_cent
  have hround_total : round2 total = total := round2_of_cent total kt hkt
  by_cases hc : 1/100 ≤ |palletDiff total weights|
  · have hilt : argmaxIdx (palletRounded total weights) < (palletRounded total weights).length :=
      argmaxIdx_lt _ hrne
    obtain ⟨ki, hki⟩ := palletRounded_cents total weights _ (getD_mem _ _ hilt)
    have hfix : round2 ((palletRounded total weights).getD (argmaxIdx (palletRounded total weights)) 0 +
        palletDiff total weights) =
        (palletRounded total weights).getD (argmaxIdx (palletRounded total weights)) 0 +
        palletDiff total weights := by
      apply round2_of_cent _ (ki + (kt - ks))
      rw [hdiff_eq]
      push_cast
      rw [hki, hkt, hks]
      ring
    constructor
    · simp only [palletAlloc]
      rw [if_pos hc, sum_set_eq _ _ _ hilt, hfix, hdiff_eq, hround_total]
      ring
    · intro j hj hjne
      simp only [palletAlloc]
      rw [if_pos hc, getD_set_ne _ _ _ _ (fun h => hjne h.symm)]
      exact palletRounded_getD total weights j hj
  · have hsmall : |total - (palletRounded total weights).sum| < 1/100 := by
      rw [← hdiff_eq]
      exact lt_of_not_le hc
    have hdz : total - (palletRounded total weights).sum = 0 :=
      cent_small_eq_zero _ (kt - ks) hdiff_cent hsmall
    constructor
    · simp only [palletAlloc]
      rw [if_neg hc, hround_total]
      linarith
    · intro j hj _
      simp only [palletAlloc]
      rw [if_neg hc]
      exact palletRounded_getD total weights j hj

/-- Witness for C1 at `total = 90`, `weights = [10, 20, 30]`. -/
theorem C1_pallet_allocation_conservation_witness :
    (palletAlloc 90 [10, 20, 30]).sum = round2 90 :=
  (C1_pallet_allocation_conservation 90 [10, 20, 30] (by norm_num)
    ⟨9000, by norm_num⟩ (by simp)
    (by
      intro w hw
      simp only [List.mem_cons, List.not_mem_nil, or_false] at hw
      rcases hw with h | h | h <;> rw [h] <;> norm_num)).1

/-! ## C5: equal-split fallback in `build_waybill_delta` -/

/-- When no waybill of a record has a positive reference weight, the shares
fall back to `1/N` for each of the `N` waybills. -/
theorem recordShares_equal (ws : List (Option ℚ))
    (h : ∀ o ∈ ws, ∀ w, o = some w → w ≤ 0) :
    recordShares ws = List.replicate ws.length (1 / (ws.length : ℚ)) := by
  have hfm : ((ws.map (fun o => match o with
      | some w => if 0 < w then some w else none
      | none => none)).filterMap id) = ([] : List ℚ) := by
    rw [List.filterMap_eq_nil_iff]
    intro a ha
    obtain ⟨o, ho, rfl⟩ := List.mem_map.mp ha
    match o, ho with
    | none, _ => rfl
    | some w, ho =>
      have hw := h (some w) ho w rfl
      simp only [id_eq]
      rw [if_neg (not_lt.mpr hw)]
  simp only [recordShares, hfm, List.sum_nil, lt_self_iff_false, if_false]

/-- Shares of a record over three weightless waybills. -/
theorem recordShares_three_none :
    recordShares [none, none, none] = [1/3, 1/3, 1/3] := by
  have h := recordShares_equal [none, none, none]
    (by intro o ho w hw; simp only [List.mem_cons, List.not_mem_nil, or_false] at ho
        rcases ho with h | h | h <;> subst h <;> cases hw)
  simpa using h

/-- Exact evaluation of `round2(100/3)`. -/
theorem round2_hundred_thirds : round2 ((100 : ℚ) * (1/3)) = 3333/100 := by
  have h := round2_eval ((100 : ℚ) * (1/3)) 3333 (by norm_num) (by norm_num)
  simpa using h

/-- The `发走费用` output for a single record of cost 100 over three
weightless waybills: each waybill's accumulated cost is rounded
independently, giving three times 33.33 with no residual correction. -/
theorem recordCosts_three_none :
    recordCosts 100 [none, none, none] = [3333/100, 3333/100, 3333/100] := by
  rw [recordCosts, recordShares_three_none]
  simp only [List.map_cons, List.map_nil, round2_hundred_thirds]

/-- C5 (amended): when no waybill of a tracking record has a positive
reference weight, `build_waybill_delta` falls back to an equal split giving
each of the `N` waybills share `1/N`; the resulting costs are rounded
independently per waybill with no remainder absorption, so a cost of 100 over
three weightless waybills yields `[33.33, 33.33, 33.33]` (sum 99.99), not
`[33.33, 33.33, 33.34]`. -/
theorem C5_equal_split_fallback :
    (∀ ws : List (Option ℚ), (∀ o ∈ ws, ∀ w, o = some w → w ≤ 0) →
      recordShares ws = List.replicate ws.length (1 / (ws.length : ℚ))) ∧
    recordCosts 100 [none, none, none] = [3333/100, 3333/100, 3333/100] :=
  ⟨recordShares_equal, recordCosts_three_none⟩

/-- Witness for C5 at a record with one non-positive and one missing weight. -/
theorem C5_equal_split_fallback_witness :
    recordShares [some (-1 : ℚ), none] = List.replicate 2 (1 / (2 : ℚ)) := by
  have h := C5_equal_split_fallback.1 [some (-1 : ℚ), none]
    (by
      intro o ho w hw
      simp only [List.mem_cons, List.not_mem_nil, or_false] at ho
      rcases ho with h | h <;> subst h
      · injection hw with h2
        rw [← h2]
        norm_num
      · cases hw)
  simpa using h

/-- C5 counterexample: the claimed output `[33.33, 33.33, 33.34]` is not what
the code produces for 100 split over three weightless waybills. -/
theorem C5_equal_split_counterexample :
    recordCosts 100 [none, none, none] ≠ [3333/100, 3333/100, 3334/100] := by
  rw [recordCosts_three_none]
  intro h
  have h2 := congrArg (fun l : List ℚ => l.getD 2 0) h
  simp only [List.getD_cons_succ, List.getD_cons_zero] at h2
  norm_num at h2

/-! ## C8: capacity-violation detection on pallet binding -/

/-- C8: an entry with reference capacity `A`, already-allocated `B`
(uploaded plus local) and request `Q` yields a violation row if and only if
`B + Q > A`, the reported overage is `B + Q - A`, all violations of the batch
are collected into one list, and rows are committed only when that list is
empty. -/
theorem C8_capacity_check (uploaded localAlloc : List Char → ℤ)
    (allowedMap : List Char → Option ℤ) (entries : List (List Char × ℤ)) :
    (∀ v ∈ (collectViolations uploaded localAlloc allowedMap entries).1,
      ∃ q, (v.wb, q) ∈ entries ∧ allowedMap v.wb = some v.allowed ∧
        v.already = uploaded v.wb + localAlloc v.wb ∧ v.addQty = q ∧
        v.allowed < v.already + q ∧ v.overage = v.already + q - v.allowed) ∧
    (∀ wb q a, (wb, q) ∈ entries → allowedMap wb = some a →
      a < uploaded wb + localAlloc wb + q →
      (⟨wb, a, uploaded wb + localAlloc wb, q,
        uploaded wb + localAlloc wb + q - a⟩ : Violation) ∈
        (collectViolations uploaded localAlloc allowedMap entries).1) ∧
    (submitCommits uploaded localAlloc allowedMap entries = true ↔
      (collectViolations uploaded localAlloc allowedMap entries).1 = []) := by
  refine ⟨?_, ?_, ?_⟩
  · induction entries with
    | nil =>
      intro v hv
      simp [collectViolations] at hv
    | cons e rest ih =>
      obtain ⟨wb, q⟩ := e
      intro v hv
      rw [collectViolations] at hv
      cases ha : allowedMap wb with
      | none =>
        rw [ha] at hv
        dsimp only at hv
        obtain ⟨q2, hq2⟩ := ih v hv
        exact ⟨q2, List.mem_cons_of_mem _ hq2.1, hq2.2⟩
      | some allowed =>
        rw [ha] at hv
        dsimp only at hv
        by_cases hlt : allowed < uploaded wb + localAlloc wb + q
        · rw [if_pos hlt] at hv
          rcases List.mem_cons.mp hv with hv | hv
          · subst hv
            exact ⟨q, List.mem_cons_self _ _, ha, rfl, rfl, hlt, rfl⟩
          · obtain ⟨q2, hq2⟩ := ih v hv
            exact ⟨q2, List.mem_cons_of_mem _ hq2.1, hq2.2⟩
        · rw [if_neg hlt] at hv
          obtain ⟨q2, hq2⟩ := ih v hv
          exact ⟨q2, List.mem_cons_of_mem _ hq2.1, hq2.2⟩
  · induction entries with
    | nil =>
      intro wb q a h
      simp at h
    | cons e rest ih =>
      obtain ⟨wb0, q0⟩ := e
      intro wb q a hmem hall hlt
      rcases List.mem_cons.mp hmem with hm | hm
      · rw [Prod.mk.injEq] at hm
        obtain ⟨h1, h2⟩ := hm
        subst h1
        subst h2
        rw [collectViolations, hall]
        dsimp only
        rw [if_pos hlt]
        exact List.mem_cons_self _ _
      · have hrec := ih wb q a hm hall hlt
        rw [collectViolations]
        cases ha : allowedMap wb0 with
        | none => exact hrec
        | some allowed =>
          dsimp only
          by_cases hlt0 : allowed < uploaded wb0 + localAlloc wb0 + q0
          · rw [if_pos hlt0]
            exact List.mem_cons_of_mem _ hrec
          · rw [if_neg hlt0]
            exact hrec
  · simp [submitCommits]

/-- Witness for C8: capacity 10, already allocated 7, request 5 reports a
violation with overage 2, in a batch of one entry. -/
theorem C8_capacity_check_witness :
    (⟨"WB1".data, 10, 7, 5, 2⟩ : Violation) ∈
      (collectViolations (fun _ => 7) (fun _ => 0) (fun _ => some 10)
        [("WB1".data, 5)]).1 := by
  have h := (C8_capacity_check (fun _ => 7) (fun _ => 0) (fun _ => some 10)
    [("WB1".data, 5)]).2.1 "WB1".data 5 10 (List.mem_cons_self _ _) rfl (by norm_num)
  simpa using h

/-! ## C2 and C10: upsert write-policy and ISO-date guard -/

theorem to_jsonable_of_effective (v : PyVal) (h : is_effective v = true) :
    to_jsonable_cell v = v := by
  cases v with
  | vNone => simp [is_effective, cellBlank] at h
  | vNan => simp [is_effective, cellBlank] at h
  | vStr s => rfl
  | vInt z => rfl
  | vNum q => rfl

theorem to_jsonable_of_iso (v : PyVal) (h : is_iso_date v = true) :
    to_jsonable_cell v = v := by
  cases v with
  | vNone => exact absurd h (by decide)
  | vNan => exact absurd h (by decide)
  | vStr s => rfl
  | vInt z => rfl
  | vNum q => rfl

/-- C2 (amended): for a `blank_only` column, a populated existing cell is
never overwritten, whatever the delta value; a blank existing cell receives
the delta value when the delta value is effective (for non-date columns) or a
strict `YYYY-MM-DD` string (for the four managed date columns).  Non-ISO
delta values for date columns are skipped even over a blank cell. -/
theorem C2_blank_only_policy (col : List Char) (oldv newv : PyVal)
    (hpol : writePolicy col = WPolicy.blankOnly) :
    (cellBlank oldv = false → cellAfter col oldv newv = oldv) ∧
    (cellBlank oldv = true →
      (isDateCol col = false ∧ is_effective newv = true) ∨
        (isDateCol col = true ∧ is_iso_date newv = true) →
      cellAfter col oldv newv = newv) := by
  constructor
  · intro hb
    cases hd : isDateCol col with
    | true =>
      by_cases hiso : is_iso_date newv = false
      · simp [cellAfter, cellDecision, hpol, cellDecisionWith, hd, hiso]
      · simp [cellAfter, cellDecision, hpol, cellDecisionWith, hd, hiso, hb]
    | false =>
      by_cases heff : is_effective newv = false
      · simp [cellAfter, cellDecision, hpol, cellDecisionWith, hd, heff]
      · simp [cellAfter, cellDecision, hpol, cellDecisionWith, hd, heff, hb]
  · intro hb hcase
    rcases hcase with ⟨hd, heff⟩ | ⟨hd, hiso⟩
    · simp [cellAfter, cellDecision, hpol, cellDecisionWith, hd, heff, hb,
        to_jsonable_of_effective newv heff]
    · simp [cellAfter, cellDecision, hpol, cellDecisionWith, hd, hiso, hb,
        to_jsonable_of_iso newv hiso]

/-- Witness for C2: blank `客户单号` cell receives the delta value, and a
populated `到仓日期` cell survives a conflicting delta. -/
theorem C2_blank_only_policy_witness :
    cellAfter "客户单号".data (vStr []) (vStr "PO1".data) = vStr "PO1".data :=
  (C2_blank_only_policy "客户单号".data (vStr []) (vStr "PO1".data) (by decide)).2
    (by decide) (Or.inl (by decide))

/-- C2 counterexample: `到仓日期` is a `blank_only` column, the existing cell
is blank and the delta value `2024/05/13` is non-blank, yet nothing is
written because the value is not a strict `YYYY-MM-DD` string. -/
theorem C2_blank_only_policy_counterexample :
    writePolicy "到仓日期".data = WPolicy.blankOnly ∧
    cellBlank (vStr []) = true ∧
    is_effective (vStr "2024/05/13".data) = true ∧
    cellAfter "到仓日期".data (vStr []) (vStr "2024/05/13".data) = vStr [] := by
  decide

/-- C10 (amended): for existing-row cell updates of the four managed date
columns, a delta value whose string form does not parse as strict
`YYYY-MM-DD` is skipped under every write policy, so such updates never write
a non-ISO value; appended new rows are not covered by this guard. -/
theorem C10_date_guard_on_updates (col : List Char) (oldv newv : PyVal)
    (hcol : col ∈ dateCols) (h : is_iso_date newv = false) :
    (∀ pol : WPolicy, cellDecisionWith pol true oldv newv = none) ∧
    cellAfter col oldv newv = oldv := by
  have hguard : ∀ pol : WPolicy, cellDecisionWith pol true oldv newv = none := by
    intro pol
    simp [cellDecisionWith, h]
  have hd : isDateCol col = true := by
    rw [isDateCol]
    exact decide_eq_true hcol
  refine ⟨hguard, ?_⟩
  simp [cellAfter, cellDecision, hd, hguard]

/-- Witness for C10 on a `到仓日期` update with a non-ISO delta value. -/
theorem C10_date_guard_on_updates_witness :
    cellAfter "到仓日期".data (vStr "2024-01-01".data) (vInt 45824) =
      vStr "2024-01-01".data :=
  (C10_date_guard_on_updates "到仓日期".data (vStr "2024-01-01".data) (vInt 45824)
    (by decide) (by decide)).2

/-- C10 counterexample: the appended-new-row path writes any effective delta
value, so the non-ISO number 45824 is written into a managed date column of a
new row. -/
theorem C10_new_row_counterexample :
    is_iso_date (vInt 45824) = false ∧ newRowCell (vInt 45824) = vInt 45824 := by
  decide

/-! ## C6: `_merge_set` union and idempotence -/

theorem splitByAux_all_keep (p : Char → Bool) (cs : List Char)
    (hcs : ∀ c ∈ cs, p c = false) : ∀ acc : List Char,
    splitByAux p cs acc =
      if acc.reverse ++ cs = [] then [] else [acc.reverse ++ cs] := by
  induction cs with
  | nil =>
    intro acc
    rw [splitByAux]
    rcases Decidable.em (acc = []) with h | h
    · subst h
      simp
    · rw [if_neg h]
      have h2 : acc.reverse ++ [] ≠ [] := by
        simpa using fun hr => h (List.reverse_eq_nil_iff.mp hr)
      rw [if_neg h2]
      simp
  | cons c cs ih =>
    intro acc
    have hc : p c = false := hcs c (List.mem_cons_self c cs)
    rw [splitByAux, if_neg (by rw [hc]; exact Bool.false_ne_true)]
    have := ih (fun x hx => hcs x (List.mem_cons_of_mem c hx)) (c :: acc)
    rw [this]
    have hr : (c :: acc).reverse ++ cs = acc.reverse ++ c :: cs := by
      simp
    rw [hr]

theorem splitByAux_delim_break (p : Char → Bool) (d : Char) (hd : p d = true)
    (tail : List Char) (cs : List Char) (hcs : ∀ c ∈ cs, p c = false) :
    ∀ acc : List Char, acc.reverse ++ cs ≠ [] →
    splitByAux p (cs ++ d :: tail) acc =
      (acc.reverse ++ cs) :: splitByAux p tail [] := by
  induction cs with
  | nil =>
    intro acc hne
    rw [List.nil_append, splitByAux, if_pos (by rw [hd])]
    have hacc : acc ≠ [] := by
      intro h
      subst h
      simp at hne
    rw [if_neg hacc]
    simp
  | cons c cs ih =>
    intro acc _
    have hc : p c = false := hcs c (List.mem_cons_self c cs)
    rw [List.cons_append, splitByAux, if_neg (by rw [hc]; exact Bool.false_ne_true)]
    have := ih (fun x hx => hcs x (List.mem_cons_of_mem c hx)) (c :: acc)
      (by simp)
    rw [this]
    have hr : (c :: acc).reverse ++ cs = acc.reverse ++ c :: cs := by
      simp
    rw [hr]

/-- Retokenizing a comma-join of nonempty delimiter-free tokens recovers the
tokens. -/
theorem splitBy_joinComma (p : Char → Bool) (hcomma : p ',' = true)
    (L : List (List Char))
    (hL : ∀ t ∈ L, t ≠ [] ∧ ∀ c ∈ t, p c = false) :
    splitBy p (joinComma L) = L := by
  induction L with
  | nil => rfl
  | cons t rest ih =>
    obtain ⟨htne, htf⟩ := hL t (List.mem_cons_self t rest)
    cases rest with
    | nil =>
      have hjoin : joinComma [t] = t := rfl
      rw [hjoin, splitBy, splitByAux_all_keep p t htf []]
      simp [htne]
    | cons t2 rest2 =>
      have hjoin : joinComma (t :: t2 :: rest2) = t ++ ',' :: joinComma (t2 :: rest2) := rfl
      rw [hjoin, splitBy,
        splitByAux_delim_break p ',' hcomma _ t htf [] (by simpa using htne)]
      rw [List.reverse_nil, List.nil_append]
      have := ih (fun x hx => hL x (List.mem_cons_of_mem t hx))
      rw [splitBy] at this
      rw [this]

/-- Tokens produced by `splitBy` are nonempty, delimiter-free, and drawn from
the input. -/
theorem splitByAux_tokens (p : Char → Bool) (s : List Char) :
    ∀ acc : List Char, (∀ c ∈ acc, p c = false) →
    ∀ t ∈ splitByAux p s acc,
      t ≠ [] ∧ ∀ c ∈ t, p c = false ∧ (c ∈ s ∨ c ∈ acc) := by
  induction s with
  | nil =>
    intro acc hacc t ht
    rw [splitByAux] at ht
    rcases Decidable.em (acc = []) with h | h
    · rw [if_pos h] at ht
      cases ht
    · rw [if_neg h] at ht
      rcases List.mem_cons.mp ht with h2 | h2
      · subst h2
        refine ⟨by simpa using fun hr => h (List.reverse_eq_nil_iff.mp hr), ?_⟩
        intro c hc
        rw [List.mem_reverse] at hc
        exact ⟨hacc c hc, Or.inr hc⟩
      · cases h2
  | cons a s ih =>
    intro acc hacc t ht
    rw [splitByAux] at ht
    by_cases ha : p a = true
    · rw [if_pos ha] at ht
      rcases Decidable.em (acc = []) with h | h
      · rw [if_pos h] at ht
        obtain ⟨h1, h2⟩ := ih [] (by simp) t ht
        refine ⟨h1, fun c hc => ?_⟩
        obtain ⟨hf, hm⟩ := h2 c hc
        rcases hm with hm | hm
        · exact ⟨hf, Or.inl (List.mem_cons_of_mem a hm)⟩
        · cases hm
      · rw [if_neg h] at ht
        rcases List.mem_cons.mp ht with h2 | h2
        · subst h2
          refine ⟨by simpa using fun hr => h (List.reverse_eq_nil_iff.mp hr), ?_⟩
          intro c hc
          rw [List.mem_reverse] at hc
          exact ⟨hacc c hc, Or.inr hc⟩
        · obtain ⟨h1, h3⟩ := ih [] (by simp) t h2
          refine ⟨h1, fun c hc => ?_⟩
          obtain ⟨hf, hm⟩ := h3 c hc
          rcases hm with hm | hm
          · exact ⟨hf, Or.inl (List.mem_cons_of_mem a hm)⟩
          · cases hm
    · rw [if_neg ha] at ht
      have ha2 : p a = false := by
        cases hpa : p a
        · rfl
        · exact absurd hpa ha
      obtain ⟨h1, h2⟩ := ih (a :: acc)
        (by
          intro c hc
          rcases List.mem_cons.mp hc with h3 | h3
          · rw [h3]; exact ha2
          · exact hacc c h3) t ht
      refine ⟨h1, fun c hc => ?_⟩
      obtain ⟨hf, hm⟩ := h2 c hc
      rcases hm with hm | hm
      · exact ⟨hf, Or.inl (List.mem_cons_of_mem a hm)⟩
      · rcases List.mem_cons.mp hm with h3 | h3
        · rw [h3] at hf ⊢
          exact ⟨hf, Or.inl (List.mem_cons_self a s)⟩
        · exact ⟨hf, Or.inr h3⟩

theorem splitBy_tokens (p : Char → Bool) (s : List Char) :
    ∀ t ∈ splitBy p s, t ≠ [] ∧ ∀ c ∈ t, p c = false ∧ c ∈ s := by
  intro t ht
  obtain ⟨h1, h2⟩ := splitByAux_tokens p s [] (by simp) t ht
  refine ⟨h1, fun c hc => ?_⟩
  obtain ⟨hf, hm⟩ := h2 c hc
  rcases hm with hm | hm
  · exact ⟨hf, hm⟩
  · cases hm

theorem mem_dedupSeen [DecidableEq α] (l : List α) :
    ∀ (seen : List α) (x : α), x ∈ dedupSeen seen l ↔ x ∈ seen ∨ x ∈ l := by
  induction l with
  | nil =>
    intro seen x
    rw [dedupSeen]
    simp
  | cons t rest ih =>
    intro seen x
    rw [dedupSeen]
    by_cases ht : t ∈ seen
    · rw [if_pos ht, ih]
      constructor
      · rintro (h | h)
        · exact Or.inl h
        · exact Or.inr (List.mem_cons_of_mem t h)
      · rintro (h | h)
        · exact Or.inl h
        · rcases List.mem_cons.mp h with h2 | h2
          · rw [h2]; exact Or.inl ht
          · exact Or.inr h2
    · rw [if_neg ht, ih]
      simp only [List.mem_append, List.mem_singleton, List.mem_cons]
      tauto

theorem nodup_dedupSeen [DecidableEq α] (l : List α) :
    ∀ seen : List α, seen.Nodup → (dedupSeen seen l).Nodup := by
  induction l with
  | nil =>
    intro seen h
    rw [dedupSeen]
    exact h
  | cons t rest ih =>
    intro seen h
    rw [dedupSeen]
    by_cases ht : t ∈ seen
    · rw [if_pos ht]
      exact ih seen h
    · rw [if_neg ht]
      refine ih (seen ++ [t]) ?_
      rw [List.nodup_append]
      exact ⟨h, List.nodup_singleton t, by simpa using ht⟩

theorem dedupSeen_of_subset [DecidableEq α] (l : List α) :
    ∀ seen : List α, (∀ x ∈ l, x ∈ seen) → dedupSeen seen l = seen := by
  induction l with
  | nil =>
    intro seen _
    rfl
  | cons t rest ih =>
    intro seen h
    rw [dedupSeen, if_pos (h t (List.mem_cons_self t rest))]
    exact ih seen (fun x hx => h x (List.mem_cons_of_mem t hx))

theorem dedupSeen_append [DecidableEq α] (a : List α) :
    ∀ (seen : List α) (b : List α),
    dedupSeen seen (a ++ b) = dedupSeen (dedupSeen seen a) b := by
  induction a with
  | nil =>
    intro seen b
    rfl
  | cons t rest ih =>
    intro seen b
    rw [List.cons_append, dedupSeen]
    by_cases ht : t ∈ seen
    · rw [if_pos ht, ih, dedupSeen, if_pos ht]
    · rw [if_neg ht, ih, dedupSeen, if_neg ht]

theorem dedupSeen_nodup_fix [DecidableEq α] (l : List α) :
    ∀ seen : List α, (seen ++ l).Nodup → dedupSeen seen l = seen ++ l := by
  induction l with
  | nil =>
    intro seen _
    rw [dedupSeen, List.append_nil]
  | cons t rest ih =>
    intro seen h
    have hts : t ∉ seen := by
      rw [List.nodup_append] at h
      exact fun hmem => h.2.2 hmem (List.mem_cons_self t rest)
    rw [dedupSeen, if_neg hts, ih (seen ++ [t]) (by simpa using h)]
    simp

theorem dedupFirst_nodup [DecidableEq α] (l : List α) : (dedupFirst l).Nodup :=
  nodup_dedupSeen l [] List.nodup_nil

theorem mem_dedupFirst [DecidableEq α] (l : List α) (x : α) :
    x ∈ dedupFirst l ↔ x ∈ l := by
  rw [dedupFirst, mem_dedupSeen]
  simp

/-- Appending already-present elements to a deduplicated list is absorbed. -/
theorem dedupFirst_append_absorb [DecidableEq α] (a b : List α)
    (h : ∀ x ∈ b, x ∈ a) :
    dedupFirst (dedupFirst a ++ b) = dedupFirst a := by
  rw [dedupFirst, dedupSeen_append,
    dedupSeen_nodup_fix (dedupFirst a) [] (by simpa using dedupFirst_nodup a)]
  rw [List.nil_append]
  exact dedupSeen_of_subset b (dedupFirst a)
    (fun x hx => (mem_dedupFirst a x).mpr (h x hx))

/-! Strip and join lemmas. -/

theorem dropWhile_eq_self_of_all (p : Char → Bool) (s : List Char)
    (h : ∀ c ∈ s, p c = false) : s.dropWhile p = s := by
  cases s with
  | nil => rfl
  | cons c rest =>
    rw [List.dropWhile_cons, if_neg]
    rw [h c (List.mem_cons_self c rest)]
    exact Bool.false_ne_true

theorem stripWs_eq_self_of_all (s : List Char)
    (h : ∀ c ∈ s, isPySpace c = false) : stripWs s = s := by
  rw [stripWs, dropWhile_eq_self_of_all _ s h,
    dropWhile_eq_self_of_all _ s.reverse (by
      intro c hc
      exact h c (List.mem_reverse.mp hc)),
    List.reverse_reverse]

theorem mem_stripWs (s : List Char) (c : Char) (h : c ∈ stripWs s) : c ∈ s := by
  rw [stripWs] at h
  rw [List.mem_reverse] at h
  have h2 := (List.dropWhile_sublist _).subset h
  rw [List.mem_reverse] at h2
  exact (List.dropWhile_sublist _).subset h2

theorem mem_joinComma (L : List (List Char)) (c : Char) (h : c ∈ joinComma L) :
    c = ',' ∨ ∃ t ∈ L, c ∈ t := by
  induction L with
  | nil => cases h
  | cons t rest ih =>
    cases rest with
    | nil =>
      exact Or.inr ⟨t, List.mem_cons_self t [], h⟩
    | cons t2 rest2 =>
      have hjoin : joinComma (t :: t2 :: rest2) = t ++ ',' :: joinComma (t2 :: rest2) := rfl
      rw [hjoin, List.mem_append, List.mem_cons] at h
      rcases h with h | h | h
      · exact Or.inr ⟨t, List.mem_cons_self t _, h⟩
      · exact Or.inl h
      · rcases ih h with h2 | ⟨t3, ht3, hc3⟩
        · exact Or.inl h2
        · exact Or.inr ⟨t3, List.mem_cons_of_mem t ht3, hc3⟩

theorem joinComma_ne_nil (t : List Char) (rest : List (List Char)) (h : t ≠ []) :
    joinComma (t :: rest) ≠ [] := by
  cases rest with
  | nil => exact h
  | cons t2 rest2 =>
    have hjoin : joinComma (t :: t2 :: rest2) = t ++ ',' :: joinComma (t2 :: rest2) := rfl
    rw [hjoin]
    simp

/-- Under the hypothesis that a value's only whitespace characters are plain
spaces, its merge tokens are nonempty, delimiter-free and whitespace-free. -/
theorem mergeToks_tokens (v : PyVal)
    (hv : ∀ c ∈ pyStr v, isPySpace c = true → c = ' ') :
    ∀ t ∈ mergeToks v, t ≠ [] ∧ ∀ c ∈ t,
      isMergeDelim c = false ∧ isPySpace c = false := by
  intro t ht
  rw [mergeToks] at ht
  by_cases hb : cellBlank v = true
  · rw [if_pos hb] at ht
    cases ht
  · rw [if_neg hb] at ht
    obtain ⟨h1, h2⟩ := splitBy_tokens _ _ t ht
    refine ⟨h1, fun c hc => ?_⟩
    obtain ⟨hf, hm⟩ := h2 c hc
    have hcs : c ∈ pyStr v := mem_stripWs _ _ hm
    refine ⟨hf, ?_⟩
    cases hps : isPySpace c
    · rfl
    · have hsp := hv c hcs hps
      subst hsp
      exact absurd hf (by decide)

/-- Retokenizing the comma-join of whitespace-free merge tokens recovers the
token list. -/
theorem mergeToks_joinComma (L : List (List Char))
    (h : ∀ t ∈ L, t ≠ [] ∧ ∀ c ∈ t, isMergeDelim c = false ∧ isPySpace c = false) :
    mergeToks (vStr (joinComma L)) = L := by
  cases L with
  | nil => rfl
  | cons t rest =>
    have htne := (h t (List.mem_cons_self t rest)).1
    have hnws : ∀ c ∈ joinComma (t :: rest), isPySpace c = false := by
      intro c hc
      rcases mem_joinComma _ c hc with h2 | ⟨t2, ht2, hc2⟩
      · rw [h2]
        decide
      · exact ((h t2 ht2).2 c hc2).2
    have hjn := joinComma_ne_nil t rest htne
    have hblank : cellBlank (vStr (joinComma (t :: rest))) = false := by
      simp only [cellBlank, stripWs_eq_self_of_all _ hnws]
      simpa using hjn
    rw [mergeToks, if_neg (by rw [hblank]; exact Bool.false_ne_true)]
    have hps : pyStr (vStr (joinComma (t :: rest))) = joinComma (t :: rest) := rfl
    rw [hps, stripWs_eq_self_of_all _ hnws]
    exact splitBy_joinComma isMergeDelim (by decide) (t :: rest)
      (fun t2 ht2 => ⟨(h t2 ht2).1, fun c hc => ((h t2 ht2).2 c hc).1⟩)

/-- C6 (amended): `_merge_set` joins the first-seen-order deduplicated union
of the old tokens followed by the new tokens (`"T1,T2"` with `"T2,T3"` gives
`"T1,T2,T3"`), and re-merging the merged result with the same delta is a
no-op provided the values contain no whitespace other than plain spaces
(token splitting and rejoining is then stable); with other whitespace, such
as a tab at a token boundary, `str.strip()` can alter a token and break
idempotence. -/
theorem C6_merge_set_union (old new : PyVal)
    (hold : ∀ c ∈ pyStr old, isPySpace c = true → c = ' ')
    (hnew : ∀ c ∈ pyStr new, isPySpace c = true → c = ' ') :
    merge_set (vStr (merge_set old new)) new = merge_set old new ∧
    merge_set (vStr "T1,T2".data) (vStr "T2,T3".data) = "T1,T2,T3".data := by
  refine ⟨?_, by decide⟩
  have hLtoks : ∀ t ∈ dedupFirst (mergeToks old ++ mergeToks new),
      t ≠ [] ∧ ∀ c ∈ t, isMergeDelim c = false ∧ isPySpace c = false := by
    intro t ht
    have hm := (mem_dedupFirst _ t).mp ht
    rcases List.mem_append.mp hm with h | h
    · exact mergeToks_tokens old hold t h
    · exact mergeToks_tokens new hnew t h
  have hres : merge_set (vStr (merge_set old new)) new =
      joinComma (dedupFirst (mergeToks (vStr (merge_set old new)) ++ mergeToks new)) := rfl
  have hold_eq : merge_set old new =
      joinComma (dedupFirst (mergeToks old ++ mergeToks new)) := rfl
  have h1 : mergeToks (vStr (merge_set old new)) =
      dedupFirst (mergeToks old ++ mergeToks new) := by
    rw [hold_eq]
    exact mergeToks_joinComma _ hLtoks
  rw [hres, h1,
    dedupFirst_append_absorb (mergeToks old ++ mergeToks new) (mergeToks new)
      (fun x hx => List.mem_append.mpr (Or.inr hx))]
  rw [hold_eq]

/-- Witness for C6 on the truck-list example. -/
theorem C6_merge_set_union_witness :
    merge_set (vStr (merge_set (vStr "T1,T2".data) (vStr "T2,T3".data)))
      (vStr "T2,T3".data) = merge_set (vStr "T1,T2".data) (vStr "T2,T3".data) :=
  (C6_merge_set_union (vStr "T1,T2".data) (vStr "T2,T3".data)
    (by decide) (by decide)).1

/-- C6 counterexample: with a tab inside the existing value, re-merging the
merged result with the same (empty) delta changes the stored string again, so
idempotence fails as stated. -/
theorem C6_merge_set_counterexample :
    merge_set (vStr (merge_set (vStr ",\ta".data) (vStr []))) (vStr []) ≠
      merge_set (vStr ",\ta".data) (vStr []) := by
  decide

/-! ## C3 and C7: bracket removal reaches a fixpoint; unmatched brackets are
literal -/

/-- The contents flushed from the scan buffer at the end of a `subParAux`
pass. -/
def flushBuf : Option (List Char) → List Char
  | none => []
  | some b => b.reverse

theorem subParAux_length_le (oC cC : Char) (s : List Char) :
    ∀ buf : Option (List Char),
    (subParAux oC cC buf s).length ≤ (flushBuf buf).length + s.length := by
  induction s with
  | nil =>
    intro buf
    cases buf with
    | none => simp [subParAux, flushBuf]
    | some b => simp [subParAux, flushBuf]
  | cons c rest ih =>
    intro buf
    cases buf with
    | none =>
      rw [subParAux]
      by_cases hc : c = oC
      · rw [if_pos hc]
        have h2 := ih (some [c])
        simp [flushBuf] at h2 ⊢
        omega
      · rw [if_neg hc]
        have h2 := ih none
        simp [flushBuf] at h2 ⊢
        omega
    | some b =>
      rw [subParAux]
      by_cases hc : c = cC
      · rw [if_pos hc]
        have h2 := ih none
        simp [flushBuf] at h2 ⊢
        omega
      · rw [if_neg hc]
        by_cases ho : c = oC
        · rw [if_pos ho]
          have h2 := ih (some [c])
          simp [flushBuf] at h2 ⊢
          omega
        · rw [if_neg ho]
          have h2 := ih (some (c :: b))
          simp [flushBuf] at h2 ⊢
          omega

theorem subParAux_eq_or_lt (oC cC : Char) (s : List Char) :
    ∀ buf : Option (List Char),
    subParAux oC cC buf s = flushBuf buf ++ s ∨
      (subParAux oC cC buf s).length < (flushBuf buf).length + s.length := by
  induction s with
  | nil =>
    intro buf
    cases buf with
    | none => exact Or.inl rfl
    | some b => exact Or.inl (by simp [subParAux, flushBuf])
  | cons c rest ih =>
    intro buf
    cases buf with
    | none =>
      rw [subParAux]
      by_cases hc : c = oC
      · rw [if_pos hc]
        rcases ih (some [c]) with h | h
        · left
          rw [h]
          simp [flushBuf, hc]
        · right
          simp [flushBuf] at h ⊢
          omega
      · rw [if_neg hc]
        rcases ih none with h | h
        · left
          rw [h]
          simp [flushBuf]
        · right
          simp [flushBuf] at h ⊢
          omega
    | some b =>
      rw [subParAux]
      by_cases hc : c = cC
      · rw [if_pos hc]
        right
        have h2 := subParAux_length_le oC cC rest none
        simp [flushBuf] at h2 ⊢
        omega
      · rw [if_neg hc]
        by_cases ho : c = oC
        · rw [if_pos ho]
          rcases ih (some [c]) with h | h
          · left
            rw [h]
            simp [flushBuf, ho]
          · right
            simp [flushBuf] at h ⊢
            omega
        · rw [if_neg ho]
          rcases ih (some (c :: b)) with h | h
          · left
            rw [h]
            simp [flushBuf]
          · right
            simp [flushBuf] at h ⊢
            omega

theorem subPar_length_le (oC cC : Char) (s : List Char) :
    (subPar oC cC s).length ≤ s.length := by
  have h := subParAux_length_le oC cC s none
  simpa [subPar, flushBuf] using h

theorem subPar_eq_or_lt (oC cC : Char) (s : List Char) :
    subPar oC cC s = s ∨ (subPar oC cC s).length < s.length := by
  have h := subParAux_eq_or_lt oC cC s none
  simpa [subPar, flushBuf] using h

theorem parenStep_eq_or_lt (s : List Char) :
    parenStep s = s ∨ (parenStep s).length < s.length := by
  rw [parenStep]
  rcases subPar_eq_or_lt '(' ')' s with h1 | h1
  · rw [h1]
    exact subPar_eq_or_lt _ _ s
  · right
    calc (subPar '（' '）' (subPar '(' ')' s)).length
        ≤ (subPar '(' ')' s).length := subPar_length_le _ _ _
      _ < s.length := h1

/-- With fuel exceeding the string length, the `_remove_parens_iter` loop
always reaches a fixpoint of the one-pass removal step. -/
theorem remove_parens_iterAux_fix : ∀ (fuel : Nat) (s : List Char), s.length < fuel →
    parenStep (remove_parens_iterAux fuel s) = remove_parens_iterAux fuel s := by
  intro fuel
  induction fuel with
  | zero =>
    intro s h
    exact absurd h (Nat.not_lt_zero _)
  | succ n ih =>
    intro s h
    rw [remove_parens_iterAux]
    by_cases he : parenStep s = s
    · rw [if_pos he]
      exact he
    · rw [if_neg he]
      apply ih
      rcases parenStep_eq_or_lt s with h2 | h2
      · exact absurd h2 he
      · omega

theorem remove_parens_iter_fix (s : List Char) :
    parenStep (remove_parens_iter s) = remove_parens_iter s :=
  remove_parens_iterAux_fix (s.length + 1) s (Nat.lt_succ_self _)

theorem remove_parens_iter_of_fix (s : List Char) (h : parenStep s = s) :
    remove_parens_iter s = s := by
  rw [remove_parens_iter, remove_parens_iterAux, if_pos h]

/-- C3 (amended): the extractor removes balanced bracketed spans from each
segment iteratively to a fixpoint (nesting and both bracket widths included)
before tokenizing, so bracketed content never yields a unit token; the first
balanced bracket pair's inner text, stripped of surrounding whitespace but
otherwise verbatim, becomes the reference associated with the segment's first
valid unit token.  On the claim's example the unit list is
`["USSH202507241130"]` with the bracketed text captured as its reference. -/
theorem C3_bracket_isolation :
    (∀ s : List Char, parenStep (remove_parens_iter s) = remove_parens_iter s) ∧
    extract_pure_waybills_and_po "USSH202507241130(IP25072400102 IP25072400118)".data =
      (["USSH202507241130".data],
        [("USSH202507241130".data, "IP25072400102 IP25072400118".data)]) :=
  ⟨remove_parens_iter_fix, by decide⟩

/-- C3 counterexample: the inner text of the first balanced pair is ` X `
verbatim, but the extractor stores the stripped text `X`. -/
theorem C3_bracket_isolation_counterexample :
    specVerbatimFirstParen "ABCD1234( X )".data = some " X ".data ∧
    (extract_pure_waybills_and_po "ABCD1234( X )".data).2 =
      [("ABCD1234".data, "X".data)] ∧
    ("X".data : List Char) ≠ " X ".data := by
  decide

/-- Whatever tokens the segment loop has already collected stay in its unit
list. -/
theorem segLoop_wbs_mono (fp : Option (List Char)) (parts : List (List Char)) :
    ∀ (st : List (List Char) × List (List Char × List Char) × Option (List Char))
      (x : List Char), x ∈ st.1 → x ∈ (segLoop fp parts st).1 := by
  induction parts with
  | nil =>
    intro st x h
    exact h
  | cons p rest ih =>
    intro st x h
    obtain ⟨wbs, cmap, found⟩ := st
    simp only [segLoop]
    by_cases ht : norm_waybill_str p = []
    · rw [if_pos ht]
      exact ih _ x h
    · rw [if_neg ht]
      by_cases hqv : isValidWb (norm_waybill_str p) = false
      · rw [if_pos hqv]
        exact ih _ x h
      · rw [if_neg hqv]
        have hx : x ∈ wbs ++ [norm_waybill_str p] := List.mem_append.mpr (Or.inl h)
        cases fp with
        | none =>
          dsimp only
          exact ih _ x hx
        | some t =>
          cases found with
          | none =>
            dsimp only
            by_cases hte : t ≠ []
            · rw [if_pos hte]
              exact ih _ x hx
            · rw [if_neg hte]
              exact ih _ x hx
          | some f =>
            dsimp only
            exact ih _ x hx

/-- Every valid token of a segment ends up in the segment loop's unit
list. -/
theorem segLoop_keeps (fp : Option (List Char)) (parts : List (List Char)) :
    ∀ st p, p ∈ parts → norm_waybill_str p ≠ [] →
      isValidWb (norm_waybill_str p) = true →
      norm_waybill_str p ∈ (segLoop fp parts st).1 := by
  induction parts with
  | nil =>
    intro st p hmem
    cases hmem
  | cons q rest ih =>
    intro st p hmem hnz hv
    obtain ⟨wbs, cmap, found⟩ := st
    simp only [segLoop]
    rcases List.mem_cons.mp hmem with he | he
    · subst he
      rw [if_neg hnz, if_neg (by simp [hv])]
      have hx : norm_waybill_str p ∈ wbs ++ [norm_waybill_str p] :=
        List.mem_append.mpr (Or.inr (List.mem_singleton.mpr rfl))
      cases fp with
      | none =>
        dsimp only
        exact segLoop_wbs_mono _ _ _ _ hx
      | some t =>
        cases found with
        | none =>
          dsimp only
          by_cases hte : t ≠ []
          · rw [if_pos hte]
            exact segLoop_wbs_mono _ _ _ _ hx
          · rw [if_neg hte]
            exact segLoop_wbs_mono _ _ _ _ hx
        | some f =>
          dsimp only
          exact segLoop_wbs_mono _ _ _ _ hx
    · by_cases ht : norm_waybill_str q = []
      · rw [if_pos ht]
        exact ih _ p he hnz hv
      · rw [if_neg ht]
        by_cases hqv : isValidWb (norm_waybill_str q) = false
        · rw [if_pos hqv]
          exact ih _ p he hnz hv
        · rw [if_neg hqv]
          cases fp with
          | none =>
            dsimp only
            exact ih _ p he hnz hv
          | some t =>
            cases found with
            | none =>
              dsimp only
              by_cases hte : t ≠ []
              · rw [if_pos hte]
                exact ih _ p he hnz hv
              · rw [if_neg hte]
                exact ih _ p he hnz hv
            | some f =>
              dsimp only
              exact ih _ p he hnz hv

theorem processSeg_fst (st : List (List Char) × List (List Char × List Char))
    (seg : List Char) :
    (processSeg st seg).1 =
      (segLoop (first_balanced_paren_content seg)
        (splitBy isTokDelim (remove_parens_iter seg)) (st.1, st.2, none)).1 := rfl

theorem foldl_processSeg_mono (segs : List (List Char)) :
    ∀ (st : List (List Char) × List (List Char × List Char)) (x : List Char),
      x ∈ st.1 → x ∈ (segs.foldl processSeg st).1 := by
  induction segs with
  | nil =>
    intro st x h
    exact h
  | cons sg rest ih =>
    intro st x h
    rw [List.foldl_cons]
    apply ih
    rw [processSeg_fst]
    exact segLoop_wbs_mono _ _ _ x h

theorem foldl_processSeg_keeps (segs : List (List Char)) :
    ∀ (st : List (List Char) × List (List Char × List Char)) (seg p : List Char),
      seg ∈ segs → p ∈ splitBy isTokDelim (remove_parens_iter seg) →
      norm_waybill_str p ≠ [] → isValidWb (norm_waybill_str p) = true →
      norm_waybill_str p ∈ (segs.foldl processSeg st).1 := by
  induction segs with
  | nil =>
    intro st seg p hseg
    cases hseg
  | cons sg rest ih =>
    intro st seg p hseg hp hnz hv
    rw [List.foldl_cons]
    rcases List.mem_cons.mp hseg with he | he
    · subst he
      apply foldl_processSeg_mono
      rw [processSeg_fst]
      exact segLoop_keeps _ _ _ p hp hnz hv
    · exact ih _ seg p he hp hnz hv

/-- A string whose `strip()` is empty consists of whitespace only. -/
theorem stripWs_nil_all_space (s : List Char) (h : stripWs s = []) :
    ∀ c ∈ s, isPySpace c = true := by
  intro c hc
  rw [stripWs, List.reverse_eq_nil_iff] at h
  have h2 : ∀ x ∈ (s.dropWhile isPySpace).reverse, isPySpace x = true := by
    intro x hx
    exact List.dropWhile_eq_nil_iff.mp h x hx
  have h3 : ∀ x ∈ s.dropWhile isPySpace, isPySpace x = true :=
    fun x hx => h2 x (List.mem_reverse.mpr hx)
  have h4 := List.takeWhile_append_dropWhile (p := isPySpace) (l := s)
  rw [← h4] at hc
  rcases List.mem_append.mp hc with h5 | h5
  · exact List.mem_takeWhile_imp h5
  · exact h3 c h5

/-- A whitespace-only string strips to the empty string. -/
theorem stripWs_nil_of_all (s : List Char) (h : ∀ c ∈ s, isPySpace c = true) :
    stripWs s = [] := by
  rw [stripWs]
  have h1 : s.dropWhile isPySpace = [] := List.dropWhile_eq_nil_iff.mpr h
  rw [h1]
  rfl

/-- A blank cell yields no segments. -/
theorem segments_nil_of_blank (mixed : List Char) (h : stripWs mixed = []) :
    ((splitBy isSegDelim mixed).map stripWs).filter (fun s => s ≠ []) = [] := by
  rw [List.filter_eq_nil_iff]
  intro seg hseg
  obtain ⟨t, ht, rfl⟩ := List.mem_map.mp hseg
  have hall : ∀ c ∈ t, isPySpace c = true := by
    intro c hc
    have hcm := ((splitBy_tokens isSegDelim mixed t ht).2 c hc).2
    exact stripWs_nil_all_space mixed h c hcm
  simp [stripWs_nil_of_all t hall]

/-- C4 (amended): for every cell, every segment of the cell and every token
of that segment that normalises to a nonempty string passing the validity
predicate, that token is kept in the returned unit list — later valid tokens
of a segment are not discarded; only the association with the segment's
bracketed reference is limited to the segment's first valid token, as the
evaluated example shows. -/
theorem C4_all_valid_tokens_kept :
    (∀ mixed seg p : List Char,
      seg ∈ ((splitBy isSegDelim mixed).map stripWs).filter (fun s => s ≠ []) →
      p ∈ splitBy isTokDelim (remove_parens_iter seg) →
      norm_waybill_str p ≠ [] → isValidWb (norm_waybill_str p) = true →
      norm_waybill_str p ∈ (extract_pure_waybills_and_po mixed).1) ∧
    extract_pure_waybills_and_po "ABCD1234 EFGH5678 (REF1)".data =
      (["ABCD1234".data, "EFGH5678".data], [("ABCD1234".data, "REF1".data)]) := by
  refine ⟨?_, by decide⟩
  intro mixed seg p hseg hp hnz hv
  rw [extract_pure_waybills_and_po]
  by_cases hb : stripWs mixed = []
  · exfalso
    rw [segments_nil_of_blank mixed hb] at hseg
    cases hseg
  · rw [if_neg hb]
    show norm_waybill_str p ∈ dedupFirst
      (((((splitBy isSegDelim mixed).map stripWs).filter (fun s => s ≠ [])).foldl
        processSeg ([], [])).1)
    rw [mem_dedupFirst]
    exact foldl_processSeg_keeps _ _ seg p hseg hp hnz hv

/-- Witness for C4: the second valid token of a two-token segment is in the
returned unit list. -/
theorem C4_all_valid_tokens_kept_witness :
    norm_waybill_str "EFGH5678".data ∈
      (extract_pure_waybills_and_po "ABCD1234 EFGH5678".data).1 :=
  C4_all_valid_tokens_kept.1 "ABCD1234 EFGH5678".data "ABCD1234 EFGH5678".data
    "EFGH5678".data (by decide) (by decide) (by decide) (by decide)

/-- C4 counterexample: a segment with two valid tokens returns both, not just
the first. -/
theorem C4_first_token_only_counterexample :
    (extract_pure_waybills_and_po "ABCD1234 EFGH5678".data).1 ≠ ["ABCD1234".data] ∧
    (extract_pure_waybills_and_po "ABCD1234 EFGH5678".data).1 =
      ["ABCD1234".data, "EFGH5678".data] := by
  decide

/-- C7: the extractor is total — the bracket-removal loop reaches its
fixpoint on every input and every other stage is structurally recursive — and
unmatched bracket characters are treated as literal characters: a string that
the one-pass removal leaves unchanged is returned unchanged, an unmatched
opener stays inside the extracted token, and an unbalanced string yields no
captured reference. -/
theorem C7_graceful_brackets :
    (∀ s : List Char, parenStep s = s → remove_parens_iter s = s) ∧
    extract_pure_waybills_and_po "ABCD(1234EFG".data = (["ABCD(1234EFG".data], []) ∧
    first_balanced_paren_content "((ABC".data = none :=
  ⟨remove_parens_iter_of_fix, by decide, by decide⟩

/-- Witness for C7 on an unbalanced input. -/
theorem C7_graceful_brackets_witness :
    remove_parens_iter "ABCD(1234EFG".data = "ABCD(1234EFG".data :=
  C7_graceful_brackets.1 "ABCD(1234EFG".data (by decide)

/-! ## C9: composite pallet identifier format -/

theorem b36Aux_length_le : ∀ (fuel n k : Nat), n < fuel → n < 36 ^ k →
    (b36Aux fuel n).length ≤ k := by
  intro fuel
  induction fuel with
  | zero =>
    intro n k h _
    exact absurd h (Nat.not_lt_zero _)
  | succ m ih =>
    intro n k h hk
    rw [b36Aux]
    by_cases hn : n = 0
    · rw [if_pos hn]
      exact Nat.zero_le k
    · rw [if_neg hn]
      cases k with
      | zero =>
        rw [pow_zero] at hk
        omega
      | succ k2 =>
        have hdiv : n / 36 < 36 ^ k2 := by
          apply Nat.div_lt_of_lt_mul
          rw [← pow_succ']
          exact hk
        have hfuel : n / 36 < m := by
          have hlt : n / 36 < n := Nat.div_lt_self (Nat.pos_of_ne_zero hn) (by norm_num)
          omega
        have h2 := ih (n / 36) k2 hfuel hdiv
        rw [List.length_append, List.length_singleton]
        omega

theorem to_base36_length_le (n k : Nat) (h : n < 36 ^ k) (hk : 1 ≤ k) :
    (to_base36 n).length ≤ k := by
  rw [to_base36]
  by_cases hn : n = 0
  · rw [if_pos hn]
    simpa using hk
  · rw [if_neg hn]
    exact b36Aux_length_le (n + 1) n k (Nat.lt_succ_self n) h

theorem rjustZeros_length (n : Nat) (t : List Char) (h : t.length ≤ n) :
    (rjustZeros n t).length = n := by
  rw [rjustZeros, List.length_append, List.length_replicate]
  omega

theorem procWh_length (warehouse : Option (List Char)) :
    1 ≤ (procWh warehouse).length ∧ (procWh warehouse).length ≤ 3 := by
  simp only [procWh]
  cases warehouse with
  | none => simp
  | some w =>
    dsimp only
    by_cases hw : w = []
    · rw [if_pos hw]
      simp
    · rw [if_neg hw]
      by_cases ht : (w.map Char.toUpper).take 3 = []
      · rw [if_pos ht]
        simp
      · rw [if_neg ht]
        constructor
        · have := List.length_pos.mpr ht
          omega
        · have := List.length_take_le 3 (w.map Char.toUpper)
          omega

/-- C9 (amended): the composite pallet id is the dash-separated string
`P<YYMMDD>-<SCOPE>-<SEQ36>-<checksum>`: the core is `P`, the six-digit date,
a dash, the uppercased scope truncated to at most 3 characters (defaulting to
`UNK` when empty, but never padded), a dash, and the base-36 sequence
zero-padded to 6 digits; the final character is
`ALPHABET[crc32(core) mod 36]` computed over the dash-separated core
including the leading `P`. -/
theorem C9_composite_id_format (warehouse : Option (List Char)) (ts : List Char)
    (seq : Nat) (hts : ts.length = 6) (hseq : seq < 36 ^ 6) :
    generate_pallet_id warehouse ts seq =
      palletCore warehouse ts seq ++
        ['-', ALPHABET.getD (crc32 (utf8Bytes (palletCore warehouse ts seq)) % 36) '0'] ∧
    (palletCore warehouse ts seq).length = 15 + (procWh warehouse).length ∧
    1 ≤ (procWh warehouse).length ∧ (procWh warehouse).length ≤ 3 ∧
    (generate_pallet_id warehouse ts seq).getLast? =
      some (ALPHABET.getD (crc32 (utf8Bytes (palletCore warehouse ts seq)) % 36) '0') := by
  have hseq6 : (rjustZeros 6 (to_base36 seq)).length = 6 :=
    rjustZeros_length 6 _ (to_base36_length_le seq 6 hseq (by norm_num))
  have hcore : (palletCore warehouse ts seq).length = 15 + (procWh warehouse).length := by
    rw [palletCore]
    simp only [List.length_cons, List.length_append, hts, hseq6]
    omega
  refine ⟨rfl, hcore, (procWh_length warehouse).1, (procWh_length warehouse).2, ?_⟩
  have hsplit : generate_pallet_id warehouse ts seq =
      (palletCore warehouse ts seq ++ ['-']) ++
        [ALPHABET.getD (crc32 (utf8Bytes (palletCore warehouse ts seq)) % 36) '0'] := by
    rw [List.append_assoc]
    rfl
  rw [hsplit, List.getLast?_concat]

set_option maxRecDepth 8192

/-- Witness for C9 at scope `BCF`, date `251012`, sequence 42. -/
theorem C9_composite_id_format_witness :
    (generate_pallet_id (some "BCF".data) "251012".data 42).getLast? =
      some (ALPHABET.getD
        (crc32 (utf8Bytes (palletCore (some "BCF".data) "251012".data 42)) % 36) '0') :=
  (C9_composite_id_format (some "BCF".data) "251012".data 42 (by decide)
    (by norm_num)).2.2.2.2

/-- C9 counterexample: the generated id contains dash separators and a short
scope is not padded to 3 characters, so the claimed separator-free
`P<YYMMDD><SCOPE3><SEQ36><checksum>` format does not match the code. -/
theorem C9_composite_id_counterexample :
    generate_pallet_id (some "BCF".data) "251012".data 42 ≠
      specCompositeId "BCF".data "251012".data 42 ∧
    procWh (some "AB".data) = "AB".data := by
  decide

end YQN
